import Mathlib

/-!
Verification development for the expression-rendering utilities of the
SOLCSPEC repository (src/parser_utils.py).  The Python module renders lark
parse trees (Tree/Token) of a contract-specification language back into
Solidity-like text.  This file gives a shallow embedding of the module:
lark Tokens and Trees become the Node inductive, Python dict symbol tables
become the SymbolTable structure, and every rendering function is
translated into a total Lean function, with Option used where the Python
code can raise on malformed tree shapes.
-/

namespace ParserUtils

/-- Shallow embedding of a lark parse node: a Token carries its terminal
type and source text, a Tree carries its grammar-rule name and ordered
children. -/
inductive Node where
  | tok (ty : String) (val : String)
  | tree (data : String) (children : List Node)

mutual

def Node.decEq : (a b : Node) → Decidable (a = b)
  | .tok t1 v1, .tok t2 v2 =>
    match String.decEq t1 t2, String.decEq v1 v2 with
    | isTrue h1, isTrue h2 => isTrue (by rw [h1, h2])
    | isFalse h1, _ => isFalse (by intro h; cases h; exact h1 rfl)
    | _, isFalse h2 => isFalse (by intro h; cases h; exact h2 rfl)
  | .tree d1 c1, .tree d2 c2 =>
    match String.decEq d1 d2, Node.decEqList c1 c2 with
    | isTrue h1, isTrue h2 => isTrue (by rw [h1, h2])
    | isFalse h1, _ => isFalse (by intro h; cases h; exact h1 rfl)
    | _, isFalse h2 => isFalse (by intro h; cases h; exact h2 rfl)
  | .tok _ _, .tree _ _ => isFalse (by intro h; cases h)
  | .tree _ _, .tok _ _ => isFalse (by intro h; cases h)

def Node.decEqList : (a b : List Node) → Decidable (a = b)
  | [], [] => isTrue rfl
  | a :: as, b :: bs =>
    match Node.decEq a b, Node.decEqList as bs with
    | isTrue h1, isTrue h2 => isTrue (by rw [h1, h2])
    | isFalse h1, _ => isFalse (by intro h; cases h; exact h1 rfl)
    | _, isFalse h2 => isFalse (by intro h; cases h; exact h2 rfl)
  | [], _ :: _ => isFalse (by intro h; cases h)
  | _ :: _, [] => isFalse (by intro h; cases h)

end

instance : DecidableEq Node := Node.decEq

/-- Embedding of the sol_symbols dict: the two externally supplied name
sets (Python sets become lists, membership is what matters). -/
structure SymbolTable where
  state_vars : List String
  functions : List String
deriving DecidableEq

/-- Python str.replace specialized to a two-character pattern and a
one-character replacement, which is the shape of all four cosmetic fixups
in the source.  Scans left to right, replacing non-overlapping occurrences
exactly as Python does. -/
def replace2 (a b r : Char) : List Char → List Char
  | [] => []
  | [c] => [c]
  | c :: d :: rest =>
    if c = a ∧ d = b then r :: replace2 a b r rest
    else c :: replace2 a b r (d :: rest)

/-- Whitespace recognized by Python str.strip. -/
def isPySpace (c : Char) : Bool :=
  c = ' ' || c = '\t' || c = '\n' || c = '\r' || c = Char.ofNat 11 || c = Char.ofNat 12

/-- Python str.strip: drop leading and trailing whitespace. -/
def pyStrip (s : String) : String :=
  ⟨((s.data.dropWhile isPySpace).reverse.dropWhile isPySpace).reverse⟩

/-- The chain of cosmetic fixups applied after joining token texts with
single spaces, in source order: drop the space before a comma, after an
opening parenthesis, before a closing parenthesis, and before a dot
(parser_utils.py line 123). -/
def applyFixups (s : String) : String :=
  ⟨replace2 ' ' '.' '.'
    (replace2 ' ' ')' ')'
      (replace2 '(' ' ' '('
        (replace2 ' ' ',' ',' s.data)))⟩

mutual

/-- Embedding of lark scan_values restricted to Tokens: the (type, text)
pairs of all leaves under a node, in tree order. -/
def scanTokens : Node → List (String × String)
  | .tok ty v => [(ty, v)]
  | .tree _ cs => scanTokensList cs

def scanTokensList : List Node → List (String × String)
  | [] => []
  | c :: cs => scanTokens c ++ scanTokensList cs

end

/-- Translation of flatten_tokens_only (parser_utils.py lines 111-124):
join all leaf texts with single spaces, apply the cosmetic fixups, then
strip.  A bare Token flattens to its text unchanged.  The function
flatten_expr (lines 10-20) has the identical body. -/
def flatten_tokens_only : Node → String
  | .tok _ v => v
  | .tree _ cs => pyStrip (applyFixups (String.intercalate " " ((scanTokensList cs).map Prod.snd)))

/-- Token types the splitter treats as atomic arguments
(ATOM_TOKEN_TYPES, parser_utils.py lines 6-8). -/
def ATOM_TOKEN_TYPES : List String :=
  ["ID", "INTEGER_LITERAL", "STRING_LITERAL", "TRUE", "FALSE"]

def isTree : Node → Bool
  | .tree _ _ => true
  | .tok _ _ => false

def isTok : Node → Bool
  | .tok _ _ => true
  | .tree _ _ => false

/-- Test that a node is a Tree with the given grammar-rule name. -/
def isTreeData (d : String) : Node → Bool
  | .tree dd _ => dd = d
  | .tok _ _ => false

/-- Test that a node is a Token of the given terminal type. -/
def isTokType (ty : String) : Node → Bool
  | .tok t _ => t = ty
  | .tree _ _ => false

/-- Text of a Token node (never applied to Trees by the translated code). -/
def tokValue : Node → String
  | .tok _ v => v
  | .tree _ _ => ""

/-- Test for a literal comma Token, the delimiter test used by all three
comma-splitting loops in the source. -/
def isCommaTok : Node → Bool
  | .tok _ v => v = ","
  | .tree _ _ => false

/-- Translation of is_atom_token (lines 298-300). -/
def is_atom_token : Node → Bool
  | .tok ty _ => ty ∈ ATOM_TOKEN_TYPES
  | .tree _ _ => false

/-- The first exprs subtree among a function_call node's children. -/
def exprs_child (cs : List Node) : Option Node :=
  cs.find? (isTreeData "exprs")

/-- Children of the first exprs subtree, or the empty list when there is
none (the source then builds zero arguments). -/
def exprsChildren (cs : List Node) : List Node :=
  match exprs_child cs with
  | some (.tree _ ecs) => ecs
  | _ => []

/-- Callee-name extraction of get_function_call_info (lines 40-47): the
last ID Token among the children preceding the first exprs subtree, or
none when there is no such Token. -/
def function_call_name (cs : List Node) : Option String :=
  ((cs.takeWhile (fun c => !isTreeData "exprs" c)).filterMap
    (fun c => match c with
      | .tok "ID" v => some v
      | _ => none)).getLast?

/-- Shared accumulator loop of the three identical comma-splitting loops
in the source (lines 158-168, 225-234, 324-334): runs of elements between
delimiter elements, with empty runs dropped, exactly as the Python
cur-flush loop does. -/
def splitRunsAux (p : α → Bool) (cur : List α) : List α → List (List α)
  | [] => if cur.isEmpty then [] else [cur.reverse]
  | x :: xs =>
    if p x then
      (if cur.isEmpty then splitRunsAux p [] xs else cur.reverse :: splitRunsAux p [] xs)
    else splitRunsAux p (x :: cur) xs

def splitRuns (p : α → Bool) (l : List α) : List (List α) :=
  splitRunsAux p [] l

/-- Join a list of already-rendered parts with single spaces, apply the
cosmetic fixups, and strip; the common tail of
flatten_expr_with_symbols_list (lines 290-296) and of the generic Tree
case of flatten_expr_with_symbols (lines 193-199). -/
def joinParts (parts : List String) : String :=
  pyStrip (applyFixups (String.intercalate " " parts))

/-- Translation of render_call (parser_utils.py lines 127-141): a
state-variable name with arguments renders as indexed accesses, anything
else as a plain call. -/
def render_call (name : String) (args : List String) (sol_symbols : SymbolTable) : String :=
  if name ∈ sol_symbols.state_vars then
    match args with
    | [] => name
    | [a] => name ++ "[" ++ a ++ "]"
    | _ => name ++ "[" ++ String.intercalate "][" args ++ "]"
  else
    name ++ "(" ++ String.intercalate ", " args ++ ")"

/-- The comma-flush loop of flatten_expr_with_symbols (lines 158-168)
applied to children already paired with their delimiter flag and rendered
text: flush the accumulated run at each comma, dropping empty runs. -/
def pairsSplitAux (cur : List String) : List (Bool × String) → List String
  | [] => if cur.isEmpty then [] else [joinParts cur.reverse]
  | (c, s) :: rest =>
    if c then
      (if cur.isEmpty then pairsSplitAux [] rest else joinParts cur.reverse :: pairsSplitAux [] rest)
    else pairsSplitAux (s :: cur) rest

theorem sizeOf_exprsChildren_le (cs : List Node) : sizeOf (exprsChildren cs) ≤ sizeOf cs := by
  unfold exprsChildren
  split
  next e d ecs hf =>
    have h2 : Node.tree d ecs ∈ cs := List.mem_of_find?_eq_some hf
    have h3 : sizeOf (Node.tree d ecs) < sizeOf cs := List.sizeOf_lt_of_mem h2
    simp only [Node.tree.sizeOf_spec] at h3
    omega
  next =>
    cases cs with
    | nil => simp
    | cons c cs' => simp; omega

mutual

/-- Translation of flatten_expr_with_symbols (lines 144-201): render an
expression while distinguishing function calls from state-variable
accesses.  A function_call child list has its callee name extracted; its
arguments are the comma-delimited runs of the exprs child's children,
each run rendered by flatten_expr_with_symbols_list (whose body fwsPairs
plus joinParts reproduces); the result goes through render_call.  The
special_var_attribute_call and contract_attribute_call shapes have their
dedicated renderings, and every other Tree renders its children
recursively, space-joined with the cosmetic fixups. -/
def flatten_expr_with_symbols (sol_symbols : SymbolTable) : Node → String
  | .tok _ v => v
  | .tree "function_call" cs =>
    match function_call_name cs with
    | none => ""
    | some fname =>
      render_call fname (pairsSplitAux [] (fwsPairs sol_symbols (exprsChildren cs))) sol_symbols
  | .tree "special_var_attribute_call" cs =>
    match (scanTokensList cs).find? (fun t => t.1 = "ID"),
          (scanTokensList cs).find? (fun t => t.1 = "SUM") with
    | some nameTok, some attrTok =>
      if nameTok.2 = "" ∨ attrTok.2 = "" then
        flatten_tokens_only (.tree "special_var_attribute_call" cs)
      else nameTok.2 ++ "." ++ attrTok.2
    | _, _ => flatten_tokens_only (.tree "special_var_attribute_call" cs)
  | .tree "contract_attribute_call" cs =>
    match cs.find? (isTreeData "contract_attribute") with
    | some attrNode =>
      let attr := flatten_tokens_only attrNode
      if attr = "" then "contract" else "contract." ++ attr
    | none => "contract"
  | .tree _ cs => joinParts (fwsStrings sol_symbols cs)
termination_by n => sizeOf n
decreasing_by
  all_goals simp_wf
  all_goals have h2 := sizeOf_exprsChildren_le cs
  all_goals omega

/-- Children of an exprs node paired with their comma-delimiter flag and
their symbol-aware rendering, in order. -/
def fwsPairs (sol_symbols : SymbolTable) : List Node → List (Bool × String)
  | [] => []
  | c :: cs => (isCommaTok c, flatten_expr_with_symbols sol_symbols c) :: fwsPairs sol_symbols cs
termination_by l => sizeOf l
decreasing_by
  all_goals simp_wf
  all_goals omega

/-- Symbol-aware renderings of a list of nodes, in order. -/
def fwsStrings (sol_symbols : SymbolTable) : List Node → List String
  | [] => []
  | c :: cs => flatten_expr_with_symbols sol_symbols c :: fwsStrings sol_symbols cs
termination_by l => sizeOf l
decreasing_by
  all_goals simp_wf
  all_goals omega

end

/-- Translation of flatten_expr_with_symbols_list (lines 290-296): render
each node, join with single spaces, apply the fixups, strip. -/
def flatten_expr_with_symbols_list (sol_symbols : SymbolTable) (nodes : List Node) : String :=
  joinParts (nodes.map (flatten_expr_with_symbols sol_symbols))

/-- Translation of split_call_args (lines 302-340), the Call-Argument
Splitter.  The comma branch reuses the shared comma-flush loop through
splitRuns and then strips each argument, exactly as the final list
comprehension does.  A Token in place of the exprs Tree raises in the
source and is unreachable from its call sites; it maps to the empty
list here. -/
def split_call_args (sol_symbols : SymbolTable) : Option Node → List String
  | none => []
  | some (.tok _ _) => []
  | some (.tree _ cs) =>
    if cs.any isTree then
      [pyStrip (flatten_expr_with_symbols_list sol_symbols cs)]
    else
      let toks := cs.filter isTok
      if toks.isEmpty then []
      else if toks.any isCommaTok then
        ((splitRuns isCommaTok toks).map (flatten_expr_with_symbols_list sol_symbols)).map pyStrip
      else if toks.all is_atom_token then toks.map tokValue
      else [pyStrip (flatten_expr_with_symbols_list sol_symbols toks)]

/-- Translation of get_function_call_info (lines 40-49), applied to a
function_call node's children: the callee name together with the split
arguments computed against an empty symbol table. -/
def get_function_call_info (cs : List Node) : Option String × List String :=
  (function_call_name cs, split_call_args ⟨[], []⟩ (exprs_child cs))

/-- Embedding of the per-call dict record produced by
collect_call_like_from_expr (lines 203-288). -/
structure CallDescriptor where
  name : String
  args : List String
  decl_kind : String
  attr : Option String
  rendered : String
deriving DecidableEq

mutual

/-- Embedding of lark iter_subtrees_topdown: all Tree nodes of a subtree
in preorder. -/
def subtreesTopdown : Node → List Node
  | .tok _ _ => []
  | .tree d cs => .tree d cs :: subtreesTopdownList cs

def subtreesTopdownList : List Node → List Node
  | [] => []
  | c :: cs => subtreesTopdown c ++ subtreesTopdownList cs

end

/-- The comma-split rendered arguments of a call-like node: nonempty runs
of the exprs child's children between literal comma Tokens, each run
rendered by flatten_expr_with_symbols_list.  This is the loop at lines
224-234 of the source, which is character-identical to the loop at lines
158-168 inside flatten_expr_with_symbols. -/
def comma_split_args (sol_symbols : SymbolTable) (cs : List Node) : List String :=
  (splitRuns isCommaTok (exprsChildren cs)).map (flatten_expr_with_symbols_list sol_symbols)

/-- The CallDescriptor built for one function_call subtree by the first
scan of collect_call_like_from_expr (lines 215-249); none when the node
is not a function_call or its callee name is missing or empty. -/
def function_call_descriptor (sol_symbols : SymbolTable) : Node → Option CallDescriptor
  | .tree "function_call" cs =>
    match function_call_name cs with
    | none => none
    | some fname =>
      if fname = "" then none
      else
        some ⟨fname, comma_split_args sol_symbols cs,
          (if fname ∈ sol_symbols.state_vars then "state_var"
           else if fname ∈ sol_symbols.functions then "function"
           else "unknown"),
          none,
          render_call fname (comma_split_args sol_symbols cs) sol_symbols⟩
  | _ => none

/-- The CallDescriptor built for one special_var_attribute_call subtree by
the second scan of collect_call_like_from_expr (lines 251-267). -/
def special_var_descriptor : Node → Option CallDescriptor
  | .tree "special_var_attribute_call" cs =>
    match (scanTokensList cs).find? (fun t => t.1 = "ID") with
    | none => none
    | some nt =>
      if nt.2 = "" then none
      else
        match (scanTokensList cs).find? (fun t => t.1 = "SUM") with
        | some st =>
          some ⟨nt.2, [], "state_var_attr", some st.2.toLower,
            (if st.2.toLower = "" then nt.2 else nt.2 ++ "." ++ st.2.toLower)⟩
        | none => some ⟨nt.2, [], "state_var_attr", none, nt.2⟩
  | _ => none

/-- The CallDescriptor built for one contract_attribute_call subtree by
the third scan of collect_call_like_from_expr (lines 269-286). -/
def contract_attribute_descriptor : Node → Option CallDescriptor
  | .tree "contract_attribute_call" cs =>
    match (cs.find? (isTreeData "contract_attribute")).map flatten_tokens_only with
    | some a =>
      some ⟨"contract", [], "contract_attr", some a,
        (if a = "" then "contract" else "contract." ++ a)⟩
    | none => some ⟨"contract", [], "contract_attr", none, "contract"⟩
  | _ => none

/-- Translation of collect_call_like_from_expr (lines 203-288): three
preorder scans over the expression, one per call-like shape, with their
results concatenated in source order. -/
def collect_call_like_from_expr (sol_symbols : SymbolTable) : Option Node → List CallDescriptor
  | none => []
  | some expr_node =>
    (subtreesTopdown expr_node).filterMap (function_call_descriptor sol_symbols)
      ++ (subtreesTopdown expr_node).filterMap special_var_descriptor
      ++ (subtreesTopdown expr_node).filterMap contract_attribute_descriptor

/-- Record for one declared rule parameter: flattened type text and
optional name (extract_rule_params, lines 64-109). -/
structure ParamRec where
  type : String
  name : Option String
deriving DecidableEq

/-- The record extracted from one nested param subtree by the second loop
of extract_rule_params (lines 103-107): its first cvl_type child flattened
and its first ID Token, skipped entirely when there is no cvl_type. -/
def param_record : Node → Option ParamRec
  | .tree dd subs =>
    if dd = "param" then
      match subs.find? (isTreeData "cvl_type") with
      | none => none
      | some pt => some ⟨flatten_tokens_only pt, (subs.find? (isTokType "ID")).map tokValue⟩
    else none
  | .tok _ _ => none

/-- The search for the first parameter's name (lines 91-100): walk the
children, mark when the leading cvl_type node itself is passed, stop at
the first param subtree, and return the first ID Token seen after the
type. -/
def firstNameAfter (ft : Node) : Bool → List Node → Option String
  | _, [] => none
  | seen, ch :: rest =>
    if ch = ft then firstNameAfter ft true rest
    else if isTreeData "param" ch then none
    else if seen ∧ isTokType "ID" ch then some (tokValue ch)
    else firstNameAfter ft seen rest

/-- Translation of extract_rule_params (lines 64-109): one record for the
leading cvl_type directly under params (with the first ID Token after it
and before any param subtree as its name), then one record per nested
param subtree in order. -/
def extract_rule_params : Option Node → List ParamRec
  | none => []
  | some (.tok _ _) => []
  | some (.tree _ children) =>
    (match children.find? (isTreeData "cvl_type") with
      | none => []
      | some ft => [⟨flatten_tokens_only ft, firstNameAfter ft false children⟩])
      ++ children.filterMap param_record

/-- The binary-operator precedence table BIN_PRECEDENCE (lines 342-356),
low to high. -/
def BIN_PRECEDENCE : List (String × Nat) :=
  [("||", 1), ("&&", 2),
   ("=>", 3), ("<=>", 4),
   ("==", 5), ("!=", 5),
   ("<", 6), ("<=", 6), (">", 6), (">=", 6),
   ("+", 7), ("-", 7),
   ("*", 8), ("/", 8), ("%", 8)]

/-- First binding of UNARY_PRECEDENCE in the source (line 358).  It is
immediately shadowed by the second binding two lines later and is never
the value any code observes. -/
def UNARY_PRECEDENCE_first : Nat := 9

/-- Second binding of UNARY_PRECEDENCE (line 360).  Python module-level
rebinding makes this the effective value used by fmt. -/
def UNARY_PRECEDENCE : Nat := 7

/-- Value of an ID Token, used to build a dotted callee name in fmt's
function_call branch (line 415). -/
def idTokVal : Node → Option String
  | .tok "ID" v => some v
  | _ => none

/-- The argument subtrees fmt formats inside a call: the Tree children of
the first exprs child; Token children such as commas are skipped by the
loop at lines 419-422. -/
def argTrees (cs : List Node) : List Node :=
  (exprsChildren cs).filter isTree

/-- Maximum reported precedence of a list of formatted parts, starting
from 0 as the Python generic loops do. -/
def maxPrec (ps : List (String × Nat)) : Nat :=
  List.foldl (fun m x => max m x.2) 0 ps

theorem sizeOf_filter_le (p : Node → Bool) (l : List Node) : sizeOf (l.filter p) ≤ sizeOf l := by
  induction l with
  | nil => simp
  | cons c cs ih =>
    by_cases h : p c <;> simp [List.filter_cons, h] <;> omega

theorem sizeOf_argTrees_le (cs : List Node) : sizeOf (argTrees cs) ≤ sizeOf cs :=
  le_trans (sizeOf_filter_le isTree (exprsChildren cs)) (sizeOf_exprsChildren_le cs)

mutual

/-- Translation of fmt (lines 362-554), the precedence-aware structural
formatter.  It returns the rendered text together with the reported
binding precedence, and returns none exactly where the Python code would
raise on a malformed tree shape (missing operand child, operand wrapper
without a Token head, logic operator absent from BIN_PRECEDENCE, and so
on).  Branch order follows the source. -/
def fmt : Node → Option (String × Nat)
  | .tok _ v => some (v, 100)
  | .tree "expr" (.tok "QUANTIFIER" qv :: tn :: vn :: bn :: _) => do
    let tp ← fmt tn
    let vp ← fmt vn
    let bp ← fmt bn
    some (qv ++ " (" ++ tp.1 ++ " " ++ vp.1 ++ ") " ++ bp.1, 100)
  | .tree "unary_expr" (.tree _ (.tok _ opv :: _) :: operand :: _) => do
    let tp ← fmt operand
    some (opv ++ (if tp.2 < UNARY_PRECEDENCE then "(" ++ tp.1 ++ ")" else tp.1),
      UNARY_PRECEDENCE)
  | .tree "unary_expr" _ => none
  | .tree "special_var_attribute_call" (base :: .tree _ (.tok _ av :: _) :: _) => do
    let bp ← fmt base
    if av = "sum" then some ("__verifier_sum_uint(" ++ bp.1 ++ ")", 100)
    else if av = "isum" then some ("__verifier_sum_int(" ++ bp.1 ++ ")", 100)
    else some (bp.1 ++ "." ++ av, 100)
  | .tree "special_var_attribute_call" _ => none
  | .tree "contract_attribute_call" (c :: a :: _) =>
    (match a with
      | .tree _ (.tok _ v :: _) => some v
      | .tok _ v => some v
      | _ => none).bind (fun av =>
      if av = "address" then some ("address(this)", 100)
      else if av = "balance" then some ("address(this).balance", 100)
      else match c with
        | .tok _ cv => some (cv ++ "." ++ av, 100)
        | .tree _ _ => none)
  | .tree "contract_attribute_call" _ => none
  | .tree "function_call" cs => do
    let ps ← fmtParts (argTrees cs)
    some (String.intercalate "." (cs.filterMap idTokVal) ++ "(" ++
      String.intercalate ", " (ps.map Prod.fst) ++ ")", 10)
  | .tree "cast_function_expr" cs =>
    match (cs.find? (isTreeData "cast_function")).map flatten_tokens_only,
          (cs.find? (isTokType "INTEGER_LITERAL")).map tokValue with
    | some cn, some av =>
      if cn = "" then do
        let ps ← fmtParts (argTrees cs)
        some (String.intercalate "." (cs.filterMap idTokVal) ++ "(" ++
          String.intercalate ", " (ps.map Prod.fst) ++ ")", 10)
      else some (cn ++ "(" ++ av ++ ")", 10)
    | _, _ => do
      let ps ← fmtParts (argTrees cs)
      some (String.intercalate "." (cs.filterMap idTokVal) ++ "(" ++
        String.intercalate ", " (ps.map Prod.fst) ++ ")", 10)
  | .tree "index" cs => do
    let ps ← fmtParts cs
    some (String.join (ps.map (fun x => "[" ++ x.1 ++ "]")), 100)
  | .tree "attribute" cs => do
    let ps ← fmtParts cs
    some (String.join (ps.map (fun x => "." ++ x.1)), 100)
  | .tree "exprs" [c] => do
    let ip ← fmt c
    some ("(" ++ ip.1 ++ ")", 100)
  | .tree "exprs" cs => do
    let ps ← fmtParts cs
    some (String.intercalate ", " (ps.map Prod.fst), 100)
  | .tree "logic_bi_expr" (l :: .tree _ (.tok _ opv :: _) :: r :: _) =>
    match BIN_PRECEDENCE.lookup opv with
    | none => none
    | some my_prec =>
      if opv = "=>" then do
        let lp ← fmt l
        let rp ← fmt r
        some ((if lp.2 < my_prec then "(" ++ lp.1 ++ ")" else lp.1) ++ " " ++ opv ++ " " ++
          (if rp.2 ≤ my_prec then "(" ++ rp.1 ++ ")" else rp.1), my_prec)
      else do
        let lp ← fmt l
        let rp ← fmt r
        some ((if lp.2 < my_prec then "(" ++ lp.1 ++ ")" else lp.1) ++ " " ++ opv ++ " " ++
          (if rp.2 < my_prec then "(" ++ rp.1 ++ ")" else rp.1), my_prec)
  | .tree "logic_bi_expr" _ => none
  | .tree "bi_expr" [l, .tree od ocs, r] =>
    if od = "binop" ∨ od = "compare_binop" then
      match ocs with
      | .tok _ opv :: _ => do
        let lp ← fmt l
        let rp ← fmt r
        some ((if lp.2 < (BIN_PRECEDENCE.lookup opv).getD 1 then "(" ++ lp.1 ++ ")" else lp.1)
          ++ " " ++ opv ++ " " ++
          (if rp.2 < (BIN_PRECEDENCE.lookup opv).getD 1 then "(" ++ rp.1 ++ ")" else rp.1),
          (BIN_PRECEDENCE.lookup opv).getD 1)
      | _ => none
    else do
      let ps ← fmtParts [l, .tree od ocs, r]
      some (String.intercalate " " (ps.map Prod.fst), maxPrec ps)
  | .tree "bi_expr" cs => do
    let ps ← fmtParts cs
    some (String.intercalate " " (ps.map Prod.fst), maxPrec ps)
  | .tree "compare_bi_expr" [l, .tree od ocs, r] =>
    if od = "binop" ∨ od = "compare_binop" then
      match ocs with
      | .tok _ opv :: _ => do
        let lp ← fmt l
        let rp ← fmt r
        some ((if lp.2 < (BIN_PRECEDENCE.lookup opv).getD 1 then "(" ++ lp.1 ++ ")" else lp.1)
          ++ " " ++ opv ++ " " ++
          (if rp.2 < (BIN_PRECEDENCE.lookup opv).getD 1 then "(" ++ rp.1 ++ ")" else rp.1),
          (BIN_PRECEDENCE.lookup opv).getD 1)
      | _ => none
    else do
      let ps ← fmtParts [l, .tree od ocs, r]
      some (String.intercalate " " (ps.map Prod.fst), maxPrec ps)
  | .tree "compare_bi_expr" cs => do
    let ps ← fmtParts cs
    some (String.intercalate " " (ps.map Prod.fst), maxPrec ps)
  | .tree "expr" [.tok "ID" v, .tree "index" ics] => do
    let ip ← fmt (.tree "index" ics)
    some (v ++ ip.1, 100)
  | .tree "expr" [.tok "ID" v, .tree "attribute" acs] => do
    let ap ← fmt (.tree "attribute" acs)
    some (v ++ ap.1, 100)
  | .tree "expr" [.tok "ID" v, .tree "index" ics, .tree "attribute" acs] => do
    let ip ← fmt (.tree "index" ics)
    let ap ← fmt (.tree "attribute" acs)
    some (v ++ ip.1 ++ ap.1, 100)
  | .tree "modify_var" [.tok "ID" v, .tree "index" ics] => do
    let ip ← fmt (.tree "index" ics)
    some (v ++ ip.1, 100)
  | .tree "modify_var" [.tok "ID" v, .tree "attribute" acs] => do
    let ap ← fmt (.tree "attribute" acs)
    some (v ++ ap.1, 100)
  | .tree "modify_var" [.tok "ID" v, .tree "index" ics, .tree "attribute" acs] => do
    let ip ← fmt (.tree "index" ics)
    let ap ← fmt (.tree "attribute" acs)
    some (v ++ ip.1 ++ ap.1, 100)
  | .tree _ [c] => fmt c
  | .tree _ cs => do
    let ps ← fmtParts cs
    some (String.intercalate " " (ps.map Prod.fst), maxPrec ps)
termination_by n => sizeOf n
decreasing_by
  all_goals simp_wf
  all_goals try have h1 := sizeOf_argTrees_le cs
  all_goals omega

/-- Formatted (text, precedence) pairs of a list of nodes, in order, with
the first failure propagated. -/
def fmtParts : List Node → Option (List (String × Nat))
  | [] => some []
  | c :: cs => do
    let p ← fmt c
    let ps ← fmtParts cs
    some (p :: ps)
termination_by l => sizeOf l
decreasing_by
  all_goals simp_wf
  all_goals omega

end

/-- Translation of to_text (lines 556-559). -/
def to_text (expr : Node) : Option String :=
  (fmt expr).map Prod.fst

/-- Spec-side rendering of the claim phrase "one bracketed segment per
argument". -/
def bracketSegments : List String → String
  | [] => ""
  | a :: as => "[" ++ a ++ "]" ++ bracketSegments as

end ParserUtils

namespace ParserUtils

theorem str_ext {a b : String} (h : a.data = b.data) : a = b := by
  cases a; cases b; exact congrArg String.mk h

theorem intercalate_go_append (s : String) (l : List String) (a b : String) :
    String.intercalate.go (a ++ b) s l = a ++ String.intercalate.go b s l := by
  induction l generalizing b with
  | nil => rfl
  | cons x xs ih =>
    show String.intercalate.go (a ++ b ++ s ++ x) s xs = a ++ String.intercalate.go (b ++ s ++ x) s xs
    have h : a ++ b ++ s ++ x = a ++ (b ++ s ++ x) := by simp [String.append_assoc]
    rw [h, ih]

theorem intercalate_cons (s a x : String) (xs : List String) :
    String.intercalate s (a :: x :: xs) = a ++ s ++ String.intercalate s (x :: xs) := by
  show String.intercalate.go (a ++ s ++ x) s xs = a ++ s ++ String.intercalate.go x s xs
  have h : a ++ s ++ x = (a ++ s) ++ x := by rw [String.append_assoc]
  rw [h, intercalate_go_append s xs (a ++ s) x]

theorem bracket_intercalate (a : String) (as : List String) :
    "[" ++ String.intercalate "][" (a :: as) ++ "]" = bracketSegments (a :: as) := by
  induction as generalizing a with
  | nil =>
    apply str_ext
    simp [String.intercalate, String.intercalate.go, bracketSegments, String.data_append]
  | cons x xs ih =>
    rw [intercalate_cons, bracketSegments, ← ih x]
    apply str_ext
    simp [String.data_append]

end ParserUtils

namespace ParserUtils

theorem splitRunsAux_flatten {α : Type} (p : α → Bool) (l : List α) :
    ∀ cur : List α, (splitRunsAux p cur l).flatten = cur.reverse ++ l.filter (fun x => !p x) := by
  induction l with
  | nil => intro cur; cases cur <;> simp [splitRunsAux]
  | cons x xs ih =>
    intro cur
    by_cases hp : p x
    · cases cur with
      | nil => simpa [splitRunsAux, hp, List.filter_cons] using ih []
      | cons c ccs => simp [splitRunsAux, hp, List.filter_cons, ih []]
    · simp [splitRunsAux, hp, List.filter_cons, ih (x :: cur)]

theorem pairsSplitAux_map (p : Node → Bool) (g : Node → String) (l : List Node) :
    ∀ cur : List Node,
      pairsSplitAux (cur.map g) (l.map (fun c => (p c, g c))) =
        (splitRunsAux p cur l).map (fun run => joinParts (run.map g)) := by
  induction l with
  | nil =>
    intro cur
    cases cur with
    | nil => simp [pairsSplitAux, splitRunsAux]
    | cons c cs => simp [pairsSplitAux, splitRunsAux, List.map_reverse]
  | cons x xs ih =>
    intro cur
    by_cases hp : p x
    · cases cur with
      | nil => simpa [pairsSplitAux, splitRunsAux, hp] using ih []
      | cons c ccs => simpa [pairsSplitAux, splitRunsAux, hp, List.map_reverse] using ih []
    · have h1 : (g x :: cur.map g) = (x :: cur).map g := rfl
      simp only [List.map_cons, pairsSplitAux, splitRunsAux, hp, if_false, Bool.false_eq_true]
      rw [h1]
      exact ih (x :: cur)

theorem fws_tok (sol_symbols : SymbolTable) (ty v : String) :
    flatten_expr_with_symbols sol_symbols (.tok ty v) = v := by
  simp [flatten_expr_with_symbols]

theorem fwsPairs_eq_map (sol_symbols : SymbolTable) (l : List Node) :
    fwsPairs sol_symbols l =
      l.map (fun c => (isCommaTok c, flatten_expr_with_symbols sol_symbols c)) := by
  induction l with
  | nil => simp [fwsPairs]
  | cons c cs ih => simp [fwsPairs, ih]

/-- Unfolding of the symbol-aware renderer on a function_call node with an
extractable callee name: the arguments passed to render_call are the
comma-delimited runs of the exprs child's children, each run rendered by
flatten_expr_with_symbols_list. -/
theorem fws_function_call (sol_symbols : SymbolTable) (cs : List Node) (fname : String)
    (h : function_call_name cs = some fname) :
    flatten_expr_with_symbols sol_symbols (.tree "function_call" cs) =
      render_call fname (comma_split_args sol_symbols cs) sol_symbols := by
  rw [flatten_expr_with_symbols, h]
  rw [fwsPairs_eq_map]
  have h0 : ([] : List String) = ([] : List Node).map (flatten_expr_with_symbols sol_symbols) := rfl
  rw [h0, pairsSplitAux_map isCommaTok (flatten_expr_with_symbols sol_symbols) (exprsChildren cs) []]
  rfl

end ParserUtils

namespace ParserUtils

set_option maxHeartbeats 1000000

theorem fmt_tok (ty v : String) : fmt (.tok ty v) = some (v, 100) := by
  simp [fmt]

/-- Unfolding of fmt on a logic_bi_expr node whose operator wrapper holds
a known operator: left operand parenthesized when strictly lower, right
operand parenthesized when lower-or-equal for the implication and strictly
lower otherwise, result precedence taken from the table. -/
theorem fmt_logic_bi (l r : Node) (od oty opv : String) (ocs rest : List Node)
    (lt rt : String) (lp rp P : Nat)
    (hop : BIN_PRECEDENCE.lookup opv = some P)
    (hl : fmt l = some (lt, lp)) (hr : fmt r = some (rt, rp)) :
    fmt (.tree "logic_bi_expr" (l :: .tree od (.tok oty opv :: ocs) :: r :: rest)) =
      some ((if lp < P then "(" ++ lt ++ ")" else lt) ++ " " ++ opv ++ " " ++
        (if (if opv = "=>" then rp ≤ P else rp < P) then "(" ++ rt ++ ")" else rt), P) := by
  simp only [fmt, hop, hl, hr]
  by_cases h : opv = "=>" <;> simp [h, hl, hr]

/-- Unfolding of fmt on a bi_expr node with a binop wrapper: both operands
parenthesized exactly when strictly lower than the operator's precedence,
defaulted to 1 for operators outside the table. -/
theorem fmt_bi (l r : Node) (oty opv : String) (ocs : List Node)
    (lt rt : String) (lp rp : Nat)
    (hl : fmt l = some (lt, lp)) (hr : fmt r = some (rt, rp)) :
    fmt (.tree "bi_expr" [l, .tree "binop" (.tok oty opv :: ocs), r]) =
      some ((if lp < (BIN_PRECEDENCE.lookup opv).getD 1 then "(" ++ lt ++ ")" else lt)
        ++ " " ++ opv ++ " " ++
        (if rp < (BIN_PRECEDENCE.lookup opv).getD 1 then "(" ++ rt ++ ")" else rt),
        (BIN_PRECEDENCE.lookup opv).getD 1) := by
  simp [fmt, hl, hr]

/-- Unfolding of fmt on a unary_expr node: operand parenthesized exactly
when its precedence is below UNARY_PRECEDENCE, and the result reports
UNARY_PRECEDENCE. -/
theorem fmt_unary (wd opty opv : String) (wrest : List Node) (operand : Node)
    (rest : List Node) (t : String) (p : Nat)
    (h : fmt operand = some (t, p)) :
    fmt (.tree "unary_expr" (.tree wd (.tok opty opv :: wrest) :: operand :: rest)) =
      some (opv ++ (if p < UNARY_PRECEDENCE then "(" ++ t ++ ")" else t), UNARY_PRECEDENCE) := by
  simp [fmt, h]

end ParserUtils

namespace ParserUtils

set_option maxHeartbeats 1000000

/-- C3: for a binary node with operator op at table precedence P, the
structural formatter parenthesizes the left operand exactly when its
reported precedence is strictly less than P; it parenthesizes the right
operand exactly when its precedence is less-than-or-equal to P for the
implication operator and strictly less than P for every other operator;
and the combined expression reports precedence P. -/
theorem binary_rendering_rule (l r : Node) (od oty opv : String) (ocs rest : List Node)
    (lt rt : String) (lp rp P : Nat)
    (hop : BIN_PRECEDENCE.lookup opv = some P)
    (hl : fmt l = some (lt, lp)) (hr : fmt r = some (rt, rp)) :
    fmt (.tree "logic_bi_expr" (l :: .tree od (.tok oty opv :: ocs) :: r :: rest)) =
      some ((if lp < P then "(" ++ lt ++ ")" else lt) ++ " " ++ opv ++ " " ++
        (if (if opv = "=>" then rp ≤ P else rp < P) then "(" ++ rt ++ ")" else rt), P) :=
  fmt_logic_bi l r od oty opv ocs rest lt rt lp rp P hop hl hr

theorem binary_rendering_rule_witness :
    fmt (.tree "logic_bi_expr" [.tok "ID" "a", .tree "binop" [.tok "OP" "=>"],
      .tree "logic_bi_expr" [.tok "ID" "b", .tree "binop" [.tok "OP" "=>"], .tok "ID" "c"]]) =
      some ("a => (b => c)", 3) := by
  have hin : fmt (.tree "logic_bi_expr"
      [Node.tok "ID" "b", .tree "binop" [.tok "OP" "=>"], .tok "ID" "c"]) = some ("b => c", 3) := by
    rw [binary_rendering_rule (.tok "ID" "b") (.tok "ID" "c") "binop" "OP" "=>" [] []
      "b" "c" 100 100 3 (by rfl) (fmt_tok "ID" "b") (fmt_tok "ID" "c")]
    norm_num
    rfl
  rw [binary_rendering_rule (.tok "ID" "a")
    (.tree "logic_bi_expr" [.tok "ID" "b", .tree "binop" [.tok "OP" "=>"], .tok "ID" "c"])
    "binop" "OP" "=>" [] [] "a" "b => c" 100 3 3 (by rfl) (fmt_tok "ID" "a") hin]
  norm_num
  rfl

/-- C4: the structural formatter renders a unary expression as the
operator glued to the operand, parenthesizing the operand exactly when
the operand's reported precedence is below UNARY_PRECEDENCE, and the
completed unary expression reports UNARY_PRECEDENCE as its own
precedence; the source binds this constant twice, to 9 and then to 7,
and the later binding (7) is the effective one. -/
theorem unary_rendering_rule (wd opty opv : String) (wrest : List Node) (operand : Node)
    (rest : List Node) (t : String) (p : Nat)
    (h : fmt operand = some (t, p)) :
    fmt (.tree "unary_expr" (.tree wd (.tok opty opv :: wrest) :: operand :: rest)) =
      some (opv ++ (if p < UNARY_PRECEDENCE then "(" ++ t ++ ")" else t), UNARY_PRECEDENCE)
    ∧ UNARY_PRECEDENCE = 7 ∧ UNARY_PRECEDENCE_first = 9
    ∧ UNARY_PRECEDENCE ≠ UNARY_PRECEDENCE_first :=
  ⟨fmt_unary wd opty opv wrest operand rest t p h, rfl, rfl, by decide⟩

theorem unary_rendering_rule_witness :
    fmt (.tree "unary_expr" [.tree "unop" [.tok "OP" "-"], .tok "ID" "a"]) = some ("-a", 7) := by
  have h := (unary_rendering_rule "unop" "OP" "-" [] (.tok "ID" "a") [] "a" 100
    (fmt_tok "ID" "a")).1
  rw [h]
  norm_num [UNARY_PRECEDENCE]
  rfl

theorem render_call_cases (name : String) (args : List String) (sol_symbols : SymbolTable) :
    render_call name args sol_symbols =
      if name ∈ sol_symbols.state_vars then
        match args with
        | [] => name
        | _ :: _ => name ++ bracketSegments args
      else name ++ "(" ++ String.intercalate ", " args ++ ")" := by
  unfold render_call
  by_cases h : name ∈ sol_symbols.state_vars
  · simp only [h, if_true]
    match args with
    | [] => rfl
    | [a] =>
      show name ++ "[" ++ a ++ "]" = name ++ ("[" ++ a ++ "]" ++ "")
      apply str_ext
      simp [String.data_append]
    | a :: b :: bs =>
      show name ++ "[" ++ String.intercalate "][" (a :: b :: bs) ++ "]"
        = name ++ bracketSegments (a :: b :: bs)
      rw [← bracket_intercalate]
      apply str_ext
      simp [String.data_append]
  · simp only [h, if_false]

/-- C5: render_call produces, for a name in the state_vars set, the bare
name on zero arguments and one bracketed segment per argument otherwise,
and for any other name the comma-joined call form. -/
theorem render_call_spec (name : String) (args : List String) (sol_symbols : SymbolTable) :
    render_call name args sol_symbols =
      if name ∈ sol_symbols.state_vars then
        match args with
        | [] => name
        | _ :: _ => name ++ bracketSegments args
      else name ++ "(" ++ String.intercalate ", " args ++ ")" :=
  render_call_cases name args sol_symbols

end ParserUtils

namespace ParserUtils

set_option maxHeartbeats 1000000

/-- C1 as stated is false on the code: with OP1 and OP2 of equal
precedence and OP1 not the implication, the formatter emits no
parentheses: a + (b - c) renders as a + b - c, which contains no
parenthesized rendering of b - c. -/
theorem round_trip_precedence_counterexample :
    fmt (.tree "bi_expr" [.tok "ID" "b", .tree "binop" [.tok "OP" "-"], .tok "ID" "c"])
      = some ("b - c", 7) ∧
    fmt (.tree "bi_expr" [.tok "ID" "a", .tree "binop" [.tok "OP" "+"],
      .tree "bi_expr" [.tok "ID" "b", .tree "binop" [.tok "OP" "-"], .tok "ID" "c"]])
      = some ("a + b - c", 7) ∧
    ¬ ("(b - c)".data <:+: "a + b - c".data) := by
  have hin : fmt (.tree "bi_expr"
      [Node.tok "ID" "b", .tree "binop" [.tok "OP" "-"], .tok "ID" "c"]) = some ("b - c", 7) := by
    rw [fmt_bi (.tok "ID" "b") (.tok "ID" "c") "OP" "-" [] "b" "c" 100 100
      (fmt_tok "ID" "b") (fmt_tok "ID" "c")]
    rw [show (List.lookup "-" BIN_PRECEDENCE).getD 1 = 7 from rfl]
    norm_num
    rfl
  refine ⟨hin, ?_, by decide⟩
  rw [fmt_bi (.tok "ID" "a")
    (.tree "bi_expr" [.tok "ID" "b", .tree "binop" [.tok "OP" "-"], .tok "ID" "c"])
    "OP" "+" [] "a" "b - c" 100 7 (fmt_tok "ID" "a") hin]
  rw [show (List.lookup "+" BIN_PRECEDENCE).getD 1 = 7 from rfl]
  norm_num
  rfl

/-- C1 (amended): for a binary expression a OP1 (b OP2 c) with both
operators in the precedence table, the formatter leaves the rendering of
b OP2 c unparenthesized exactly when OP2's precedence is strictly higher
than OP1's, or equal to it while OP1 is not the implication; it
parenthesizes it exactly when OP2's precedence is strictly lower, or
equal while OP1 is the implication. -/
theorem round_trip_precedence_amended (b c : Node) (a : Node) (ty1 ty2 op1 op2 : String)
    (ta tb tc : String) (pa pb pc P1 P2 : Nat)
    (hop1 : BIN_PRECEDENCE.lookup op1 = some P1)
    (hop2 : BIN_PRECEDENCE.lookup op2 = some P2)
    (ha : fmt a = some (ta, pa)) (hb : fmt b = some (tb, pb)) (hc : fmt c = some (tc, pc)) :
    fmt (.tree "logic_bi_expr" [a, .tree "binop" [.tok ty1 op1],
        .tree "logic_bi_expr" [b, .tree "binop" [.tok ty2 op2], c]]) =
      some ((if pa < P1 then "(" ++ ta ++ ")" else ta) ++ " " ++ op1 ++ " " ++
        (if P2 > P1 ∨ (P2 = P1 ∧ op1 ≠ "=>") then
          (if pb < P2 then "(" ++ tb ++ ")" else tb) ++ " " ++ op2 ++ " " ++
            (if (if op2 = "=>" then pc ≤ P2 else pc < P2) then "(" ++ tc ++ ")" else tc)
         else "(" ++ ((if pb < P2 then "(" ++ tb ++ ")" else tb) ++ " " ++ op2 ++ " " ++
            (if (if op2 = "=>" then pc ≤ P2 else pc < P2) then "(" ++ tc ++ ")" else tc)) ++ ")"),
        P1) := by
  have hin := fmt_logic_bi b c "binop" ty2 op2 [] [] tb tc pb pc P2 hop2 hb hc
  rw [fmt_logic_bi a
    (.tree "logic_bi_expr" [b, .tree "binop" [.tok ty2 op2], c]) "binop" ty1 op1 [] []
    ta _ pa P2 P1 hop1 ha hin]
  by_cases hcond : P2 > P1 ∨ (P2 = P1 ∧ op1 ≠ "=>")
  · have hf : ¬ (if op1 = "=>" then P2 ≤ P1 else P2 < P1) := by
      rcases hcond with h | ⟨he, hne⟩
      · by_cases h1 : op1 = "=>" <;> simp [h1] <;> omega
      · simp [hne]
        omega
    rw [if_neg hf, if_pos hcond]
  · have ht : (if op1 = "=>" then P2 ≤ P1 else P2 < P1) := by
      push_neg at hcond
      obtain ⟨hle, himp⟩ := hcond
      by_cases h1 : op1 = "=>"
      · simp [h1]
        omega
      · simp [h1]
        rcases Nat.lt_or_ge P2 P1 with h | h
        · exact h
        · exact absurd (himp (by omega)) (by simp [h1])
    rw [if_pos ht, if_neg hcond]

theorem round_trip_precedence_amended_witness :
    fmt (.tree "logic_bi_expr" [.tok "ID" "a", .tree "binop" [.tok "OP" "||"],
      .tree "logic_bi_expr" [.tok "ID" "b", .tree "binop" [.tok "OP" "&&"], .tok "ID" "c"]]) =
      some ("a || b && c", 1) ∧
    fmt (.tree "logic_bi_expr" [.tok "ID" "a", .tree "binop" [.tok "OP" "&&"],
      .tree "logic_bi_expr" [.tok "ID" "b", .tree "binop" [.tok "OP" "||"], .tok "ID" "c"]]) =
      some ("a && (b || c)", 2) := by
  constructor
  · rw [round_trip_precedence_amended (.tok "ID" "b") (.tok "ID" "c") (.tok "ID" "a")
      "OP" "OP" "||" "&&" "a" "b" "c" 100 100 100 1 2 (by rfl) (by rfl)
      (fmt_tok "ID" "a") (fmt_tok "ID" "b") (fmt_tok "ID" "c")]
    norm_num
    rfl
  · rw [round_trip_precedence_amended (.tok "ID" "b") (.tok "ID" "c") (.tok "ID" "a")
      "OP" "OP" "&&" "||" "a" "b" "c" 100 100 100 2 1 (by rfl) (by rfl)
      (fmt_tok "ID" "a") (fmt_tok "ID" "b") (fmt_tok "ID" "c")]
    norm_num
    rfl

end ParserUtils

namespace ParserUtils

set_option maxHeartbeats 1000000

/-- C2 as stated is false on the code: for an exprs child holding two
atomic ID Tokens and no comma, the Call-Argument Splitter returns two
arguments while the symbol-aware renderer passes render_call the single
space-joined argument, so the rendering is f(a b) rather than the
f(a, b) the splitter's output would produce. -/
theorem renderer_splitter_counterexample :
    split_call_args ⟨[], []⟩ (some (.tree "exprs" [.tok "ID" "a", .tok "ID" "b"])) = ["a", "b"] ∧
    flatten_expr_with_symbols ⟨[], []⟩
      (.tree "function_call" [.tok "ID" "f", .tree "exprs" [.tok "ID" "a", .tok "ID" "b"]])
      = "f(a b)" ∧
    render_call "f" ["a", "b"] ⟨[], []⟩ = "f(a, b)" ∧
    ("f(a b)" : String) ≠ "f(a, b)" := by
  refine ⟨by decide, ?_, by decide, by decide⟩
  rw [fws_function_call ⟨[], []⟩ [.tok "ID" "f", .tree "exprs" [.tok "ID" "a", .tok "ID" "b"]]
    "f" (by rfl)]
  show render_call "f"
    ((splitRuns isCommaTok (exprsChildren [.tok "ID" "f",
        .tree "exprs" [.tok "ID" "a", .tok "ID" "b"]])).map
      (flatten_expr_with_symbols_list ⟨[], []⟩)) ⟨[], []⟩ = "f(a b)"
  rw [show exprsChildren [Node.tok "ID" "f", .tree "exprs" [.tok "ID" "a", .tok "ID" "b"]]
    = [Node.tok "ID" "a", Node.tok "ID" "b"] from rfl]
  rw [show splitRuns isCommaTok [Node.tok "ID" "a", Node.tok "ID" "b"]
    = [[Node.tok "ID" "a", Node.tok "ID" "b"]] from by decide]
  simp only [List.map_cons, List.map_nil, flatten_expr_with_symbols_list, fws_tok]
  decide

/-- C2 (amended): the argument strings the symbol-aware renderer passes
to render_call for a function_call node are the comma-delimited runs of
the exprs child's children (empty runs dropped), each run rendered by
flatten_expr_with_symbols_list; this coincides with the Call-Argument
Splitter's output only when the splitter takes its comma-splitting
branch. -/
theorem renderer_call_arguments (sol_symbols : SymbolTable) (cs : List Node) (fname : String)
    (h : function_call_name cs = some fname) :
    flatten_expr_with_symbols sol_symbols (.tree "function_call" cs) =
      render_call fname
        ((splitRuns isCommaTok (exprsChildren cs)).map
          (flatten_expr_with_symbols_list sol_symbols)) sol_symbols :=
  fws_function_call sol_symbols cs fname h

theorem renderer_call_arguments_witness :
    flatten_expr_with_symbols ⟨["balances"], ["transfer"]⟩
      (.tree "function_call" [.tok "ID" "transfer", .tree "exprs"
        [.tok "ID" "addr", .tok "COMMA" ",", .tok "INTEGER_LITERAL" "100"]])
      = "transfer(addr, 100)" := by
  rw [renderer_call_arguments ⟨["balances"], ["transfer"]⟩
    [.tok "ID" "transfer", .tree "exprs"
      [.tok "ID" "addr", .tok "COMMA" ",", .tok "INTEGER_LITERAL" "100"]]
    "transfer" (by rfl)]
  rw [show exprsChildren [Node.tok "ID" "transfer", .tree "exprs"
      [.tok "ID" "addr", .tok "COMMA" ",", .tok "INTEGER_LITERAL" "100"]]
    = [Node.tok "ID" "addr", Node.tok "COMMA" ",", Node.tok "INTEGER_LITERAL" "100"] from rfl]
  rw [show splitRuns isCommaTok
      [Node.tok "ID" "addr", Node.tok "COMMA" ",", Node.tok "INTEGER_LITERAL" "100"]
    = [[Node.tok "ID" "addr"], [Node.tok "INTEGER_LITERAL" "100"]] from by decide]
  simp only [List.map_cons, List.map_nil, flatten_expr_with_symbols_list, fws_tok]
  decide

end ParserUtils

namespace ParserUtils

set_option maxHeartbeats 1000000

theorem filter_isTok_of_no_tree (cs : List Node) (h : cs.any isTree = false) :
    cs.filter isTok = cs := by
  induction cs with
  | nil => rfl
  | cons c cs ih =>
    simp only [List.any_cons, Bool.or_eq_false_iff] at h
    have hc : isTok c = true := by
      cases c with
      | tok ty v => rfl
      | tree d k => simp [isTree] at h
    simp [List.filter_cons, hc, ih h.2]

/-- C6: the Call-Argument Splitter follows the four-step priority order:
any Interior child makes the whole content one single argument; otherwise
a literal comma splits the Leaves into one argument per nonempty run;
otherwise all-atomic Leaves each become their own argument; otherwise the
entire run is one argument. -/
theorem split_call_args_priority (sol_symbols : SymbolTable) (d : String) (cs : List Node) :
    (cs.any isTree = true →
      split_call_args sol_symbols (some (.tree d cs)) =
        [pyStrip (flatten_expr_with_symbols_list sol_symbols cs)]) ∧
    (cs.any isTree = false → cs.any isCommaTok = true →
      split_call_args sol_symbols (some (.tree d cs)) =
        ((splitRuns isCommaTok cs).map (flatten_expr_with_symbols_list sol_symbols)).map
          pyStrip) ∧
    (cs.any isTree = false → cs.any isCommaTok = false → cs.all is_atom_token = true →
      split_call_args sol_symbols (some (.tree d cs)) = cs.map tokValue) ∧
    (cs.any isTree = false → cs.any isCommaTok = false → cs.all is_atom_token = false →
      split_call_args sol_symbols (some (.tree d cs)) =
        [pyStrip (flatten_expr_with_symbols_list sol_symbols cs)]) := by
  refine ⟨fun h1 => ?_, fun h1 h2 => ?_, fun h1 h2 h3 => ?_, fun h1 h2 h3 => ?_⟩
  · simp [split_call_args, h1]
  · have hne : cs ≠ [] := by rintro rfl; simp at h2
    simp [split_call_args, h1, filter_isTok_of_no_tree cs h1, h2,
      List.isEmpty_iff, hne, List.map_map]
  · cases cs with
    | nil => simp [split_call_args]
    | cons c cs' =>
      simp [split_call_args, h1, filter_isTok_of_no_tree _ h1, h2, h3, List.isEmpty_iff]
  · have hne : cs ≠ [] := by rintro rfl; simp at h3
    simp [split_call_args, h1, filter_isTok_of_no_tree cs h1, h2, h3, List.isEmpty_iff, hne]

theorem split_call_args_priority_witness :
    split_call_args ⟨[], []⟩ (some (.tree "exprs"
      [.tok "ID" "a", .tok "COMMA" ",", .tok "ID" "b", .tok "COMMA" ",", .tok "ID" "c"]))
      = ["a", "b", "c"] := by
  have h := (split_call_args_priority ⟨[], []⟩ "exprs"
    [.tok "ID" "a", .tok "COMMA" ",", .tok "ID" "b", .tok "COMMA" ",", .tok "ID" "c"]).2.1
    (by decide) (by decide)
  rw [h]
  rw [show splitRuns isCommaTok
      [Node.tok "ID" "a", Node.tok "COMMA" ",", Node.tok "ID" "b", Node.tok "COMMA" ",",
        Node.tok "ID" "c"]
    = [[Node.tok "ID" "a"], [Node.tok "ID" "b"], [Node.tok "ID" "c"]] from by decide]
  simp only [List.map_cons, List.map_nil, flatten_expr_with_symbols_list, fws_tok]
  decide

/-- C7 as stated is false on the code: a Leaf under exprs can be dropped
from every argument's rendered text.  Here the exprs node holds one
nested function_call with no callee ID, which the symbol-aware renderer
renders as the empty string, so the Leaf with text x appears in no
returned argument. -/
theorem splitter_coverage_counterexample :
    split_call_args ⟨[], []⟩ (some (.tree "exprs"
      [.tree "function_call" [.tok "LPAR" "(", .tree "exprs" [.tok "ID" "x"]]])) = [""] ∧
    ("ID", "x") ∈ scanTokensList
      [Node.tree "function_call" [.tok "LPAR" "(", .tree "exprs" [.tok "ID" "x"]]] ∧
    ¬ ("x".data <:+: ("" : String).data) := by
  refine ⟨?_, by decide, by decide⟩
  have h1 : flatten_expr_with_symbols ⟨[], []⟩
      (.tree "function_call" [.tok "LPAR" "(", .tree "exprs" [.tok "ID" "x"]]) = "" := by
    rw [flatten_expr_with_symbols]
    rfl
  simp [split_call_args, isTree, flatten_expr_with_symbols_list, h1]
  decide

end ParserUtils

namespace ParserUtils

set_option maxHeartbeats 1000000

/-- C7 (amended): coverage holds at the level of the splitter's grouping
of direct children rather than of rendered text: in the comma branch the
nonempty runs between commas concatenate back to exactly the non-comma
children (no child dropped or duplicated, commas consumed as delimiters)
and each returned argument is the rendering of one run; when an Interior
child is present the single returned argument's group is the entire
children list.  Leaves inside a group may still be rewritten or dropped
by symbol-aware rendering of the group. -/
theorem split_call_args_coverage (sol_symbols : SymbolTable) (d : String) (cs : List Node) :
    ((splitRuns isCommaTok cs).flatten = cs.filter (fun c => !isCommaTok c)) ∧
    (cs.any isTree = false → cs.any isCommaTok = true →
      split_call_args sol_symbols (some (.tree d cs)) =
        (splitRuns isCommaTok cs).map
          (fun run => pyStrip (flatten_expr_with_symbols_list sol_symbols run))) ∧
    (cs.any isTree = true →
      split_call_args sol_symbols (some (.tree d cs)) =
        [pyStrip (flatten_expr_with_symbols_list sol_symbols cs)]) := by
  refine ⟨by simpa using splitRunsAux_flatten isCommaTok cs [], fun h1 h2 => ?_, fun h1 => ?_⟩
  · have hne : cs ≠ [] := by rintro rfl; simp at h2
    simp [split_call_args, h1, filter_isTok_of_no_tree cs h1, h2,
      List.isEmpty_iff, hne, List.map_map]
  · simp [split_call_args, h1]

theorem split_call_args_coverage_witness :
    (splitRuns isCommaTok
      [Node.tok "ID" "x", Node.tok "COMMA" ",", Node.tok "COMMA" ",", Node.tok "ID" "y"]).flatten
      = [Node.tok "ID" "x", Node.tok "ID" "y"] ∧
    split_call_args ⟨[], []⟩ (some (.tree "exprs"
      [.tok "ID" "x", .tok "COMMA" ",", .tok "COMMA" ",", .tok "ID" "y"])) = ["x", "y"] := by
  have h := split_call_args_coverage ⟨[], []⟩ "exprs"
    [.tok "ID" "x", .tok "COMMA" ",", .tok "COMMA" ",", .tok "ID" "y"]
  refine ⟨by decide, ?_⟩
  rw [h.2.1 (by decide) (by decide)]
  rw [show splitRuns isCommaTok
      [Node.tok "ID" "x", Node.tok "COMMA" ",", Node.tok "COMMA" ",", Node.tok "ID" "y"]
    = [[Node.tok "ID" "x"], [Node.tok "ID" "y"]] from by decide]
  simp only [List.map_cons, List.map_nil, flatten_expr_with_symbols_list, fws_tok]
  decide

theorem function_call_descriptor_fields (sol_symbols : SymbolTable) (fc : Node)
    (d : CallDescriptor) (h : function_call_descriptor sol_symbols fc = some d) :
    d.decl_kind = (if d.name ∈ sol_symbols.state_vars then "state_var"
      else if d.name ∈ sol_symbols.functions then "function" else "unknown")
    ∧ d.rendered = render_call d.name d.args sol_symbols := by
  unfold function_call_descriptor at h
  split at h
  next cs =>
    split at h
    next => exact absurd h (by simp)
    next fname hname =>
      split at h
      next => exact absurd h (by simp)
      next =>
        have hd := Option.some.inj h
        subst hd
        simp
  next => exact absurd h (by simp)

/-- C8: every function_call descriptor produced by the call-collection
scan is classified state_var, function, or unknown by symbol-table
membership in that priority order; a name in neither set is never an
error and the descriptor's rendered text still uses the default
function-call form. -/
theorem collect_classification (sol_symbols : SymbolTable) (e : Node) (d : CallDescriptor)
    (hd : d ∈ (subtreesTopdown e).filterMap (function_call_descriptor sol_symbols)) :
    d.decl_kind = (if d.name ∈ sol_symbols.state_vars then "state_var"
      else if d.name ∈ sol_symbols.functions then "function" else "unknown")
    ∧ (d.name ∉ sol_symbols.state_vars → d.name ∉ sol_symbols.functions →
      d.rendered = d.name ++ "(" ++ String.intercalate ", " d.args ++ ")") := by
  obtain ⟨fc, _, heq⟩ := List.mem_filterMap.mp hd
  have hf := function_call_descriptor_fields sol_symbols fc d heq
  refine ⟨hf.1, fun h1 h2 => ?_⟩
  rw [hf.2]
  unfold render_call
  simp [h1]

theorem collect_classification_witness :
    (⟨"foo", ["x"], "unknown", none, "foo(x)"⟩ : CallDescriptor).decl_kind = "unknown" ∧
    (⟨"foo", ["x"], "unknown", none, "foo(x)"⟩ : CallDescriptor).rendered = "foo(x)" := by
  have hargs : comma_split_args ⟨["balances"], ["transfer"]⟩
      [Node.tok "ID" "foo", .tree "exprs" [.tok "ID" "x"]] = ["x"] := by
    unfold comma_split_args
    rw [show splitRuns isCommaTok (exprsChildren
        [Node.tok "ID" "foo", .tree "exprs" [.tok "ID" "x"]])
      = [[Node.tok "ID" "x"]] from by decide]
    simp only [List.map_cons, List.map_nil, flatten_expr_with_symbols_list, fws_tok]
    decide
  have hfoo : function_call_descriptor ⟨["balances"], ["transfer"]⟩
      (.tree "function_call" [.tok "ID" "foo", .tree "exprs" [.tok "ID" "x"]])
      = some ⟨"foo", ["x"], "unknown", none, "foo(x)"⟩ := by
    simp only [function_call_descriptor,
      show function_call_name [Node.tok "ID" "foo", .tree "exprs" [.tok "ID" "x"]]
        = some "foo" from rfl, hargs]
    decide
  have hd : (⟨"foo", ["x"], "unknown", none, "foo(x)"⟩ : CallDescriptor) ∈
      (subtreesTopdown (.tree "expr" [.tree "function_call"
        [.tok "ID" "foo", .tree "exprs" [.tok "ID" "x"]]])).filterMap
        (function_call_descriptor ⟨["balances"], ["transfer"]⟩) :=
    List.mem_filterMap.mpr
      ⟨.tree "function_call" [.tok "ID" "foo", .tree "exprs" [.tok "ID" "x"]], by decide, hfoo⟩
  have h := collect_classification ⟨["balances"], ["transfer"]⟩
    (.tree "expr" [.tree "function_call" [.tok "ID" "foo", .tree "exprs" [.tok "ID" "x"]]])
    ⟨"foo", ["x"], "unknown", none, "foo(x)"⟩ hd
  constructor
  · rw [h.1]
    decide
  · rw [h.2 (by decide) (by decide)]
    rfl

/-- C10: a name present in both symbol sets receives state-variable
treatment: render_call yields the bare name or indexed accesses, never
the call form, and the scan's function_call descriptors carrying that
name are classified state_var, not function. -/
theorem state_var_priority (name : String) (args : List String) (sol_symbols : SymbolTable)
    (e : Node) (d : CallDescriptor)
    (hsv : name ∈ sol_symbols.state_vars) (_hfn : name ∈ sol_symbols.functions)
    (hd : d ∈ (subtreesTopdown e).filterMap (function_call_descriptor sol_symbols))
    (hn : d.name = name) :
    (render_call name args sol_symbols =
      match args with
      | [] => name
      | _ :: _ => name ++ bracketSegments args) ∧
    d.decl_kind = "state_var" ∧ d.decl_kind ≠ "function" := by
  obtain ⟨fc, _, heq⟩ := List.mem_filterMap.mp hd
  have hf := function_call_descriptor_fields sol_symbols fc d heq
  have hkind : d.decl_kind = "state_var" := by
    rw [hf.1, hn]
    simp [hsv]
  refine ⟨?_, hkind, by rw [hkind]; decide⟩
  rw [render_call_cases]
  simp [hsv]

theorem state_var_priority_witness :
    render_call "balances" ["addr"] ⟨["balances"], ["balances"]⟩ = "balances[addr]" ∧
    (⟨"balances", ["addr"], "state_var", none, "balances[addr]"⟩ : CallDescriptor).decl_kind
      = "state_var" := by
  have hargs : comma_split_args ⟨["balances"], ["balances"]⟩
      [Node.tok "ID" "balances", .tree "exprs" [.tok "ID" "addr"]] = ["addr"] := by
    unfold comma_split_args
    rw [show splitRuns isCommaTok (exprsChildren
        [Node.tok "ID" "balances", .tree "exprs" [.tok "ID" "addr"]])
      = [[Node.tok "ID" "addr"]] from by decide]
    simp only [List.map_cons, List.map_nil, flatten_expr_with_symbols_list, fws_tok]
    decide
  have hbal : function_call_descriptor ⟨["balances"], ["balances"]⟩
      (.tree "function_call" [.tok "ID" "balances", .tree "exprs" [.tok "ID" "addr"]])
      = some ⟨"balances", ["addr"], "state_var", none, "balances[addr]"⟩ := by
    simp only [function_call_descriptor,
      show function_call_name [Node.tok "ID" "balances", .tree "exprs" [.tok "ID" "addr"]]
        = some "balances" from rfl, hargs]
    decide
  have hd : (⟨"balances", ["addr"], "state_var", none, "balances[addr]"⟩ : CallDescriptor) ∈
      (subtreesTopdown (.tree "expr" [.tree "function_call"
        [.tok "ID" "balances", .tree "exprs" [.tok "ID" "addr"]]])).filterMap
        (function_call_descriptor ⟨["balances"], ["balances"]⟩) :=
    List.mem_filterMap.mpr
      ⟨.tree "function_call" [.tok "ID" "balances", .tree "exprs" [.tok "ID" "addr"]],
        by decide, hbal⟩
  have h := state_var_priority "balances" ["addr"] ⟨["balances"], ["balances"]⟩
    (.tree "expr" [.tree "function_call"
      [.tok "ID" "balances", .tree "exprs" [.tok "ID" "addr"]]])
    ⟨"balances", ["addr"], "state_var", none, "balances[addr]"⟩
    (by decide) (by decide) hd (by decide)
  refine ⟨?_, h.2.1⟩
  rw [h.1]
  decide

end ParserUtils

namespace ParserUtils

set_option maxHeartbeats 1000000

theorem param_record_eq_none (n : Node) (h : isTreeData "param" n = false) :
    param_record n = none := by
  cases n with
  | tok ty v => rfl
  | tree dd subs =>
    have hne : dd ≠ "param" := by simpa [isTreeData] using h
    simp [param_record, hne]

theorem firstNameAfter_after (tkids : List Node) (mid rest : List Node)
    (hmid : ∀ n ∈ mid, isTreeData "cvl_type" n = false ∧ isTreeData "param" n = false)
    (hrest : ∀ n ∈ rest, isTreeData "param" n = true) :
    firstNameAfter (.tree "cvl_type" tkids) true (mid ++ rest) =
      (mid.find? (isTokType "ID")).map tokValue := by
  induction mid with
  | nil =>
    cases rest with
    | nil => rfl
    | cons r rs =>
      have hr := hrest r (by simp)
      have hne : r ≠ Node.tree "cvl_type" tkids := by
        intro he
        rw [he] at hr
        simp [isTreeData] at hr
      simp [firstNameAfter, hne, hr]
  | cons m ms ih =>
    have hm := hmid m (by simp)
    have hne : m ≠ Node.tree "cvl_type" tkids := by
      intro he
      have := hm.1
      rw [he] at this
      simp [isTreeData] at this
    by_cases hid : isTokType "ID" m = true
    · simp [firstNameAfter, hne, hm.2, hid, List.find?_cons]
    · have hid2 : isTokType "ID" m = false := by simpa using hid
      simp [firstNameAfter, hne, hm.2, hid2, List.find?_cons,
        ih (fun n hn => hmid n (by simp [hn]))]

/-- C9: extract_rule_params returns an ordered list of records preserving
declaration order: the first record is the leading cvl_type directly
under params, named by the first ID Leaf after that type and before any
param subtree (absent rather than an error when no such Leaf exists), and
each subsequent record comes from a nested param subtree in order. -/
theorem extract_rule_params_spec (tkids mid rest : List Node)
    (hmid : ∀ n ∈ mid, isTreeData "cvl_type" n = false ∧ isTreeData "param" n = false)
    (hrest : ∀ n ∈ rest, isTreeData "param" n = true) :
    extract_rule_params (some (.tree "params" (.tree "cvl_type" tkids :: (mid ++ rest)))) =
      ⟨flatten_tokens_only (.tree "cvl_type" tkids), (mid.find? (isTokType "ID")).map tokValue⟩
        :: rest.filterMap param_record := by
  have hfind : (Node.tree "cvl_type" tkids :: (mid ++ rest)).find? (isTreeData "cvl_type")
      = some (.tree "cvl_type" tkids) := by
    simp [List.find?_cons, isTreeData]
  simp only [extract_rule_params, hfind]
  have h1 : firstNameAfter (.tree "cvl_type" tkids) false
      (Node.tree "cvl_type" tkids :: (mid ++ rest))
      = firstNameAfter (.tree "cvl_type" tkids) true (mid ++ rest) := by
    simp [firstNameAfter]
  rw [h1, firstNameAfter_after tkids mid rest hmid hrest]
  rw [List.filterMap_cons]
  have hhead : param_record (.tree "cvl_type" tkids) = none :=
    param_record_eq_none _ (by simp [isTreeData])
  rw [hhead, List.filterMap_append]
  have hmidnone : mid.filterMap param_record = [] := by
    rw [List.filterMap_eq_nil_iff]
    exact fun a ha => param_record_eq_none a (hmid a ha).2
  rw [hmidnone]
  rfl

theorem extract_rule_params_spec_witness :
    extract_rule_params (some (.tree "params"
      [.tree "cvl_type" [.tok "TYPE" "uint"], .tok "ID" "a",
       .tree "param" [.tree "cvl_type" [.tok "TYPE" "address"], .tok "ID" "b"],
       .tree "param" [.tree "cvl_type" [.tok "TYPE" "bytes32"], .tok "ID" "c"]]))
      = [⟨"uint", some "a"⟩, ⟨"address", some "b"⟩, ⟨"bytes32", some "c"⟩] := by
  have h := extract_rule_params_spec [.tok "TYPE" "uint"] [.tok "ID" "a"]
    [.tree "param" [.tree "cvl_type" [.tok "TYPE" "address"], .tok "ID" "b"],
     .tree "param" [.tree "cvl_type" [.tok "TYPE" "bytes32"], .tok "ID" "c"]]
    (by decide) (by decide)
  rw [show (Node.tree "cvl_type" [.tok "TYPE" "uint"] :: ([Node.tok "ID" "a"] ++
      [Node.tree "param" [.tree "cvl_type" [.tok "TYPE" "address"], .tok "ID" "b"],
       Node.tree "param" [.tree "cvl_type" [.tok "TYPE" "bytes32"], .tok "ID" "c"]]))
    = [Node.tree "cvl_type" [.tok "TYPE" "uint"], .tok "ID" "a",
       .tree "param" [.tree "cvl_type" [.tok "TYPE" "address"], .tok "ID" "b"],
       .tree "param" [.tree "cvl_type" [.tok "TYPE" "bytes32"], .tok "ID" "c"]] from rfl] at h
  rw [h]
  decide

end ParserUtils
